import Mathlib

/-
Verification development for the graph recomputation, normalization and layout
engine of retentioneering-tools (src/retentioneering/core/rete_graph/rete_graph.py).
The Python source is shallowly embedded below: pandas DataFrames become lists of
record structures, columns become association lists keyed by column name, and
finite float values become exact rationals.  Two division operations are kept
apart, because the source mixes them: plain Python float division raises
ZeroDivisionError on a zero divisor (pyDiv, an Except value), while numpy and
pandas elementwise division silently produces a non-finite value (npDiv, an
Option value with none standing for NaN or a signed infinity).
-/

namespace Rete

/-- One row of the raw clickstream event log: the case id and the event name.
Timestamps are abstracted by list order, which the log preserves. -/
structure LogRow where
  user : Nat
  event : String
deriving DecidableEq, Repr

/-- One row of the session node list (ReteGraph.nodelist): the event name
column, the user edit state (active, parent, alias, changed_name) and the
metric columns (the columns reported by get_nodelist_cols) as an association
list from column name to a finite value. -/
structure NodeRow where
  name : String
  active : Bool
  parent : Option String
  alias_ : String
  changed_name : Option String
  metrics : List (String × ℚ)
deriving DecidableEq, Repr, Inhabited

/-- One row of the session edge list (ReteGraph.edgelist).  The first two
positional columns are source and target, the third positional column is the
designated default edge weight, and custom metric columns follow as an
association list.  The type and weight_norm columns do not exist until the
source assigns them in place; none models an absent column, and the inner
Option of weight_norm models a possibly non-finite stored value. -/
structure EdgeRow where
  source : String
  target : String
  weight : ℚ
  custom : List (String × ℚ)
  type : Option String
  weight_norm : Option (Option ℚ)
deriving DecidableEq, Repr, Inhabited

/-- Numpy and pandas elementwise division: a zero divisor produces a
non-finite result (NaN or a signed infinity), represented as none, and no
exception is raised.  A nonzero divisor gives the exact quotient. -/
def npDiv (a b : ℚ) : Option ℚ := if b = 0 then none else some (a / b)

/-- The error raised by a plain Python float division with a zero divisor
(ZeroDivisionError).  The specification names this condition ScaleError. -/
inductive ScaleError where
  | zeroDivision
deriving DecidableEq, Repr

/-- Plain Python float division, which raises on a zero divisor, unlike the
numpy elementwise division modelled by npDiv. -/
def pyDiv (a b : ℚ) : Except ScaleError ℚ :=
  if b = 0 then .error .zeroDivision else .ok (a / b)

/-- Python min over a list of finite floats.  Python raises on an empty
sequence and a pandas extremum of an empty column is NaN; the empty case is
modelled as 0, and every theorem whose content depends on the extremum
additionally assumes the list is nonempty. -/
def pyMin : List ℚ → ℚ
  | [] => 0
  | x :: xs => xs.foldl min x

/-- Python and pandas max over a list of finite floats; empty case as in
pyMin. -/
def pyMax : List ℚ → ℚ
  | [] => 0
  | x :: xs => xs.foldl max x

/-- Modelled from the spec: the schema accessors of the external ReteExplorer
collaborator (get_nodelist_cols, get_nodelist_default_col,
get_edgelist_default_col, get_custom_cols), whose implementation is not part
of this repository slice.  They are opaque configuration data here. -/
structure ReteConfig where
  nodelistCols : List String
  nodelistDefaultCol : String
  edgelistDefaultCol : String
  customCols : List String
deriving DecidableEq, Repr

/-- Reads a metric column of a node row (row[col]).  A missing column is read
as 0; the verified claims only ever read declared columns. -/
def getMetric (r : NodeRow) (col : String) : ℚ := (r.metrics.lookup col).getD 0

/-- Writes a metric column of a node row (row[col] = v), replacing the value
of an existing column; a row without that column is left unchanged. -/
def setMetric (r : NodeRow) (col : String) (v : ℚ) : NodeRow :=
  { r with metrics := r.metrics.map (fun p => if p.1 == col then (p.1, v) else p) }

/-- nodelist[col].abs().max() over the whole node list. -/
def nodeColMaxAbs (nl : List NodeRow) (col : String) : ℚ :=
  pyMax (nl.map (fun r => |getMetric r col|))

/-- nodelist[col].max() with no absolute value, exactly as _prepare_nodes
computes its per-metric scale. -/
def nodeColMax (nl : List NodeRow) (col : String) : ℚ :=
  pyMax (nl.map (fun r => getMetric r col))

/-- Reads an edge list column by name: the designated default column is the
positional weight column, any other name is looked up among the custom
columns (missing columns read as 0). -/
def getEdgeCol (cfg : ReteConfig) (e : EdgeRow) (col : String) : ℚ :=
  if col == cfg.edgelistDefaultCol then e.weight else (e.custom.lookup col).getD 0

/-- edgelist[col].abs().max() by column name. -/
def edgeColMaxAbs (cfg : ReteConfig) (el : List EdgeRow) (col : String) : ℚ :=
  pyMax (el.map (fun e => |getEdgeCol cfg e col|))

/-- edgelist[col].abs().max() over a custom metric column. -/
def edgeCustomMaxAbs (el : List EdgeRow) (col : String) : ℚ :=
  pyMax (el.map (fun e => |(e.custom.lookup col).getD 0|))

/-- Modelled from the spec: the observed transitions of an event log, one pair
per adjacent rows sharing a case id (edges are transitions between consecutive
events of one case). -/
def transitions : List LogRow → List (String × String)
  | [] => []
  | [_] => []
  | a :: b :: rest =>
    (if a.user == b.user then [(a.event, b.event)] else []) ++ transitions (b :: rest)

/-- Modelled from the spec: create_nodelist of the external Explorer
collaborator.  One row per distinct surviving event name, the designated
default metric column holding the event count, fresh edit state, and the alias
equal to the name. -/
def createNodelist (cfg : ReteConfig) (log : List LogRow) : List NodeRow :=
  (log.map (·.event)).dedup.map (fun e =>
    { name := e, active := true, parent := none, alias_ := e, changed_name := none,
      metrics := [(cfg.nodelistDefaultCol,
                   ((log.filter (fun r => r.event == e)).length : ℚ))] })

/-- Modelled from the spec: create_edgelist of the external Explorer
collaborator.  One row per distinct transition pair of the given log, weighted
by the count of that pair; the type and weight_norm columns do not exist yet. -/
def createEdgelist (log : List LogRow) : List EdgeRow :=
  (transitions log).dedup.map (fun p =>
    { source := p.1, target := p.2, weight := ((transitions log).count p : ℚ),
      custom := [], type := none, weight_norm := none })

/-- A manually saved node position, one row of the layout DataFrame. -/
structure LayoutNode where
  name : String
  x : ℚ
  y : ℚ
deriving DecidableEq, Repr

/-- A raw threshold mapping from metric name to a float, as sent by the
caller of plot_graph (a Python dict, so keys are unique). -/
abbrev Threshold := List (String × ℚ)

/-- The session state owned by a ReteGraph instance: the immutable raw
clickstream of the Explorer, the mutable node and edge lists, the optional
manual layout, and the stored threshold settings from graph_settings (the
display booleans of graph_settings play no role in the verified claims). -/
structure ReteGraphState where
  clickstream : List LogRow
  nodelist : List NodeRow
  edgelist : List EdgeRow
  layout : Option (List LayoutNode)
  settingsNodesThr : Option Threshold
  settingsLinksThr : Option Threshold
deriving DecidableEq, Repr

/-- _replace_grouped_events: if the event name of the row matches a grouped
node (first match, as iloc[0] reads it), the row is relabeled to the parent of
that node.  The substitution is applied exactly once per row. -/
def replaceGroupedEvents (grouped : List NodeRow) (row : LogRow) : LogRow :=
  match grouped.find? (fun g => g.name == row.event) with
  | none => row
  | some g => { row with event := g.parent.getD row.event }

/-- The active partition of the node list (_recalculate line 179). -/
def activeNodes (nl : List NodeRow) : List NodeRow :=
  nl.filter (fun n => n.active)

/-- The grouped partition of the node list: parent set and active
(_recalculate lines 180-181). -/
def groupedNodes (nl : List NodeRow) : List NodeRow :=
  nl.filter (fun n => n.parent.isSome && n.active)

/-- The clickstream restricted to events of active nodes (_recalculate lines
184-186). -/
def filteredLog (nl : List NodeRow) (log : List LogRow) : List LogRow :=
  log.filter (fun r => ((activeNodes nl).map (·.name)).contains r.event)

/-- The filtered clickstream with one pass of group substitution applied
(_recalculate lines 188-189). -/
def relabeledLog (nl : List NodeRow) (log : List LogRow) : List LogRow :=
  (filteredLog nl log).map (replaceGroupedEvents (groupedNodes nl))

/-- _update_node_after_recalc: the recomputed metrics of the row matching on
event name (first match) are merged onto the original row over the declared
metric columns; a row with no match keeps its values. -/
def updateNodeAfterRecalc (cfg : ReteConfig) (recalculated : List NodeRow)
    (row : NodeRow) : NodeRow :=
  match recalculated.find? (fun n => n.name == row.name) with
  | none => row
  | some m => cfg.nodelistCols.foldl (fun r c => setMetric r c (getMetric m c)) row

/-- _recalculate: rebuild the node and edge lists from the raw clickstream
using the current active and grouping edits.  The node list keeps its rows and
merges recomputed metrics back; the edge list is replaced wholesale. -/
def recalculate (cfg : ReteConfig) (s : ReteGraphState) : ReteGraphState :=
  { s with
      nodelist := s.nodelist.map
        (updateNodeAfterRecalc cfg (createNodelist cfg (relabeledLog s.nodelist s.clickstream))),
      edgelist := createEdgelist (relabeledLog s.nodelist s.clickstream) }

/-- One degree entry of an incoming node edit (only the source value is
read back by _on_nodelist_updated). -/
structure DegreeEdit where
  source : ℚ
deriving DecidableEq, Repr

/-- One node edit sent by the client to _on_nodelist_updated.  The outer
Option of changed_name models presence of the key in the payload. -/
structure NodeEdit where
  index : Nat
  name : String
  active : Bool
  parent : Option String
  alias_ : String
  changed_name : Option (Option String)
  degree : List (String × DegreeEdit)
deriving DecidableEq, Repr

/-- Updates the first row whose name matches (indexes[0] in the source). -/
def updateFirst (nl : List NodeRow) (nm : String) (f : NodeRow → NodeRow) : List NodeRow :=
  match nl with
  | [] => []
  | r :: rest => if r.name == nm then f r :: rest else r :: updateFirst rest nm f

/-- One iteration of the _on_nodelist_updated loop.  An existing row (matched
by name, first index) gets active, parent, optionally changed_name, and the
source value of every degree entry naming an existing metric column.  An
unmatched edit inserts a freshly built row; the source builds it by iterating
the column list, and a metric column with no matching degree entry is left
unset (NaN), which this finite-value model represents as 0; the label-based
loc assignment at the edit index is modelled as an append.  No verified claim
exercises the insert path. -/
def applyNodeEdit (cfg : ReteConfig) (nl : List NodeRow) (e : NodeEdit) : List NodeRow :=
  if nl.any (fun r => r.name == e.name) then
    updateFirst nl e.name (fun r =>
      let r1 := { r with
        active := e.active, parent := e.parent,
        changed_name := match e.changed_name with
          | some cn => cn
          | none => r.changed_name }
      e.degree.foldl (fun acc p => setMetric acc p.1 p.2.source) r1)
  else
    nl ++ [{ name := e.name, active := e.active, parent := e.parent,
             alias_ := e.alias_, changed_name := e.changed_name.getD none,
             metrics := cfg.nodelistCols.map
               (fun c => (c, ((e.degree.lookup c).map (·.source)).getD 0)) }]

/-- _on_nodelist_updated: applies each edit of the batch in order to the
session node list. -/
def onNodelistUpdated (cfg : ReteConfig) (edits : List NodeEdit)
    (s : ReteGraphState) : ReteGraphState :=
  { s with nodelist := edits.foldl (applyNodeEdit cfg) s.nodelist }

/-- One per-metric degree record of a prepared node. -/
structure DegreeEntry where
  degree : Option ℚ
  source : ℚ
deriving DecidableEq, Repr

/-- A serialized node record of the renderable payload (PreparedNode in the
source). -/
structure PreparedNode where
  index : Nat
  name : String
  degree : List (String × DegreeEntry)
  type : String
  active : Bool
  alias_ : String
  parent : Option String
  changed_name : Option String
  x : Option (Option ℚ)
  y : Option (Option ℚ)
deriving DecidableEq, Repr

/-- A computed layout position; the coordinates are numpy values and may be
non-finite (none) after a degenerate rescale. -/
structure PosEntry where
  name : String
  x : Option ℚ
  y : Option ℚ
deriving DecidableEq, Repr

/-- The node classification mapping handed to _prepare_nodes and
_make_template_data. -/
abbrev NodeParams := List (String × String)

/-- The first node row with the given event name (nodelist.loc followed by
taking element 0).  The callers only use names drawn from the node list, so
the default value is never read. -/
def findRow (nl : List NodeRow) (nm : String) : NodeRow :=
  (nl.find? (fun r => r.name == nm)).getD default

/-- The per-metric degree block of _prepare_nodes: for every declared metric
column, degree = abs(value) / abs(nodelist[col].max()) * 30 + 4 (note the
scale is the column max, not the max of absolute values), and source is the
raw value.  The division is elementwise numpy division. -/
def mkDegree (nl : List NodeRow) (cols : List String) (row : NodeRow) :
    List (String × DegreeEntry) :=
  cols.map (fun c =>
    (c, { degree := (npDiv |getMetric row c| |nodeColMax nl c|).map (fun t => t * 30 + 4),
          source := getMetric row c }))

/-- _prepare_nodes: one prepared node per distinct event name with a dense
index in iteration order (a Python set, whose order is unspecified; this model
fixes first-occurrence order), the degree block, the node type from the
classification mapping suffixed with _node, and coordinates taken from the
optional position mapping.  Returns the node list and the name-keyed set. -/
def prepareNodes (cfg : ReteConfig) (nl : List NodeRow)
    (nodeParams : Option NodeParams) (pos : Option (List PosEntry)) :
    List PreparedNode × List (String × PreparedNode) :=
  let ns := ((nl.map (·.name)).dedup).enum.map (fun p =>
    let row := findRow nl p.2
    let nodePos : Option PosEntry := match pos with
      | none => none
      | some ps => ps.find? (fun q => q.name == p.2)
    (p.2, ({ index := p.1, name := p.2,
             degree := mkDegree nl cfg.nodelistCols row,
             type := (match nodeParams with
                      | none => "suit"
                      | some prms => (prms.lookup p.2).getD "suit") ++ "_node",
             active := row.active, alias_ := row.alias_, parent := row.parent,
             changed_name := none,
             x := nodePos.map (·.x), y := nodePos.map (·.y) } : PreparedNode)))
  (ns.map Prod.snd, ns)

/-- One weight record of a prepared link; weight_norm is a numpy value. -/
structure Weight where
  weight_norm : Option ℚ
  weight : ℚ
deriving DecidableEq, Repr

/-- A serialized link record of the renderable payload. -/
structure PreparedLink where
  sourceIndex : Nat
  targetIndex : Nat
  weights : List (String × Weight)
  type : String
deriving DecidableEq, Repr

/-- Python dict assignment on an association list: replace the value of an
existing key in place, otherwise append the new binding. -/
def assocSet {α : Type} : List (String × α) → String → α → List (String × α)
  | [], k, v => [(k, v)]
  | (a, b) :: rest, k, v =>
    if a == k then (a, v) :: rest else (a, b) :: assocSet rest k v

/-- The weights dict built for one edge row by _prepare_edges: the entry keyed
by the nodelist default column holds the default weight and the just-computed
weight_norm of the row, then one entry per custom column normalized by that
column-wide max of absolute values. -/
def linkWeights (cfg : ReteConfig) (el : List EdgeRow) (row : EdgeRow) :
    List (String × Weight) :=
  cfg.customCols.foldl
    (fun ws c => assocSet ws c
      { weight_norm := npDiv ((row.custom.lookup c).getD 0) (edgeCustomMaxAbs el c),
        weight := (row.custom.lookup c).getD 0 })
    [(cfg.nodelistDefaultCol,
      { weight_norm := row.weight_norm.getD none, weight := row.weight })]

/-- _prepare_edges: assigns the weight_norm column in place on the edge list
it receives (weight divided elementwise by the max of absolute weights), then
serializes one link per row whose source and target names are both present in
the prepared node set; a row with a missing endpoint is silently dropped.
Returns the mutated edge list and the links. -/
def prepareEdges (cfg : ReteConfig) (edgelist : List EdgeRow)
    (nodesSet : List (String × PreparedNode)) :
    List EdgeRow × List PreparedLink :=
  let mw := pyMax (edgelist.map (fun x => |x.weight|))
  let el := edgelist.map (fun e => { e with weight_norm := some (npDiv e.weight mw) })
  let links := el.filterMap (fun row =>
    match nodesSet.lookup row.source, nodesSet.lookup row.target with
    | some sn, some tn =>
      some { sourceIndex := sn.index, targetIndex := tn.index,
             weights := linkWeights cfg el row, type := row.type.getD "" }
    | some _, none => none
    | none, _ => none)
  (el, links)

/-- The renderable payload returned by the recalculate handler. -/
structure Payload where
  nodes : List PreparedNode
  links : List PreparedLink
deriving DecidableEq, Repr

/-- _on_recalc_request: apply the node edits, recompute from the raw log, tag
every recomputed edge row with type suit in place, and serialize the payload;
_prepare_edges mutates the session edge list in place while doing so. -/
def onRecalcRequest (cfg : ReteConfig) (edits : List NodeEdit)
    (s : ReteGraphState) : ReteGraphState × Payload :=
  let s1 := recalculate cfg (onNodelistUpdated cfg edits s)
  let s2 : ReteGraphState := { s1 with
    edgelist := s1.edgelist.map (fun e => { e with type := some "suit" }) }
  let pn := prepareNodes cfg s2.nodelist none none
  let pe := prepareEdges cfg s2.edgelist pn.2
  ({ s2 with edgelist := pe.1 }, { nodes := pn.1, links := pe.2 })

/-- _get_norm_node_threshold: every requested key is divided by the max of
absolute values of its own node list column; the division is plain Python
float division and raises on a zero scale. -/
def getNormNodeThreshold (nl : List NodeRow) : Threshold → Except ScaleError Threshold
  | [] => .ok []
  | (k, v) :: rest =>
    match pyDiv v (nodeColMaxAbs nl k) with
    | .error e => .error e
    | .ok nv =>
      match getNormNodeThreshold nl rest with
      | .error e => .error e
      | .ok r => .ok ((k, nv) :: r)

/-- The scale governing one link threshold key in _get_norm_link_threshold: a
key equal to the nodelist default column scales against the edge list default
column, any other key against its own edge list column. -/
def linkScale (cfg : ReteConfig) (el : List EdgeRow) (k : String) : ℚ :=
  if k == cfg.nodelistDefaultCol then edgeColMaxAbs cfg el cfg.edgelistDefaultCol
  else edgeColMaxAbs cfg el k

/-- _get_norm_link_threshold: every requested key divided by its governing
scale, with plain Python float division. -/
def getNormLinkThreshold (cfg : ReteConfig) (el : List EdgeRow) :
    Threshold → Except ScaleError Threshold
  | [] => .ok []
  | (k, v) :: rest =>
    match pyDiv v (linkScale cfg el k) with
    | .error e => .error e
    | .ok nv =>
      match getNormLinkThreshold cfg el rest with
      | .error e => .error e
      | .ok r => .ok ((k, nv) :: r)

/-- A position produced by the external networkx spring layout for one node;
the simulation itself is outside this slice and enters as a function
parameter below. -/
structure SpringPos where
  name : String
  x : ℚ
  y : ℚ
deriving DecidableEq, Repr

/-- _calc_layout: run the external spring layout on the edge list, then
affinely rescale the bounding box onto the margins 75 and 50 of the canvas.
The coordinates are numpy floats, so a zero-width or zero-height bounding box
makes the rescale divide by zero elementwise, silently producing non-finite
coordinates (none) rather than raising. -/
def calcLayout (sl : List EdgeRow → List SpringPos) (edgelist : List EdgeRow)
    (width height : ℚ) : List PosEntry :=
  let posNew := sl edgelist
  let minX := pyMin (posNew.map (·.x))
  let minY := pyMin (posNew.map (·.y))
  let maxX := pyMax (posNew.map (·.x))
  let maxY := pyMax (posNew.map (·.y))
  posNew.map (fun p =>
    { name := p.name,
      x := (npDiv (p.x - minX) (maxX - minX)).map (fun t => t * (width - 150) + 75),
      y := (npDiv (p.y - minY) (maxY - minY)).map (fun t => t * (height - 100) + 50) })

/-- _use_layout: every computed position whose name has a stored manual row
is replaced verbatim by the stored coordinates (the stored names are unique,
as item() asserts; the first match is used). -/
def useLayout (layout : Option (List LayoutNode)) (position : List PosEntry) :
    List PosEntry :=
  match layout with
  | none => position
  | some lay => position.map (fun p =>
      match lay.find? (fun m => m.name == p.name) with
      | none => p
      | some m => { name := p.name, x := some m.x, y := some m.y })

/-- The edge type classification of _make_template_data line 418-420. -/
def calcEdgeType (np : NodeParams) (row : EdgeRow) : String :=
  if np.lookup row.source == some "source" then "source"
  else (np.lookup row.target).getD "suit"

/-- _make_template_data: works on copies of the session lists, tags edge
types from the classification mapping, computes and overlays the layout, and
serializes nodes and links.  The node classification construction
(_make_node_params) is irrelevant to the verified claims and is passed in. -/
def makeTemplateData (cfg : ReteConfig) (sl : List EdgeRow → List SpringPos)
    (np : NodeParams) (width height : ℚ) (s : ReteGraphState) :
    List PreparedNode × List PreparedLink :=
  let edgelist := s.edgelist.map (fun row => { row with type := some (calcEdgeType np row) })
  let pos := useLayout s.layout (calcLayout sl edgelist width height)
  let pn := prepareNodes cfg s.nodelist (some np) (some pos)
  let pe := prepareEdges cfg edgelist pn.2
  (pn.1, pe.2)

/-- plot_graph, restricted to the state-and-error-relevant pipeline: normalize
the requested node and link thresholds (stored settings take precedence and
skip normalization), then build the template data from copies of the session
lists.  The state is threaded explicitly; an exception escaping a step leaves
the session state exactly as it was, because no step preceding the
normalizations mutates it.  The HTML templating and display are out of
scope. -/
def plotGraph (cfg : ReteConfig) (sl : List EdgeRow → List SpringPos)
    (np : NodeParams) (width height : ℚ)
    (nodesThr linksThr : Option Threshold) (s : ReteGraphState) :
    ReteGraphState × Except ScaleError Payload :=
  let normN : Except ScaleError (Option Threshold) :=
    match s.settingsNodesThr with
    | some t => .ok (some t)
    | none =>
      match nodesThr with
      | none => .ok none
      | some t =>
        match getNormNodeThreshold s.nodelist t with
        | .error e => .error e
        | .ok r => .ok (some r)
  match normN with
  | .error e => (s, .error e)
  | .ok _ =>
    let normL : Except ScaleError (Option Threshold) :=
      match s.settingsLinksThr with
      | some t => .ok (some t)
      | none =>
        match linksThr with
        | none => .ok none
        | some t =>
          match getNormLinkThreshold cfg s.edgelist t with
          | .error e => .error e
          | .ok r => .ok (some r)
    match normL with
    | .error e => (s, .error e)
    | .ok _ =>
      let td := makeTemplateData cfg sl np width height s
      (s, .ok { nodes := td.1, links := td.2 })

instance {ε α : Type} [DecidableEq ε] [DecidableEq α] : DecidableEq (Except ε α) := fun x y =>
  match x, y with
  | .error a, .error b =>
    if h : a = b then .isTrue (by rw [h]) else .isFalse (by intro hc; cases hc; exact h rfl)
  | .error _, .ok _ => .isFalse (by intro hc; cases hc)
  | .ok _, .error _ => .isFalse (by intro hc; cases hc)
  | .ok a, .ok b =>
    if h : a = b then .isTrue (by rw [h]) else .isFalse (by intro hc; cases hc; exact h rfl)

/-! Helper lemmas about the list primitives of the embedding. -/

theorem le_foldl_max (xs : List ℚ) (b : ℚ) :
    b ≤ xs.foldl max b ∧ ∀ a ∈ xs, a ≤ xs.foldl max b := by
  induction xs generalizing b with
  | nil => simp
  | cons x xs ih =>
    refine ⟨le_trans (le_max_left b x) (ih (max b x)).1, ?_⟩
    intro a ha
    rcases List.mem_cons.mp ha with h | h
    · subst h
      exact le_trans (le_max_right b a) (ih (max b a)).1
    · exact (ih (max b x)).2 a h

theorem le_pyMax (l : List ℚ) (a : ℚ) (h : a ∈ l) : a ≤ pyMax l := by
  cases l with
  | nil => cases h
  | cons x xs =>
    rcases List.mem_cons.mp h with h | h
    · subst h
      exact (le_foldl_max xs a).1
    · exact (le_foldl_max xs x).2 a h

theorem foldl_max_mem (xs : List ℚ) (b : ℚ) :
    xs.foldl max b = b ∨ xs.foldl max b ∈ xs := by
  induction xs generalizing b with
  | nil => exact Or.inl rfl
  | cons x xs ih =>
    rcases ih (max b x) with h | h
    · rcases max_choice b x with hm | hm
      · exact Or.inl (by rw [List.foldl, h, hm])
      · exact Or.inr (by rw [List.foldl, h, hm]; exact List.mem_cons_self x xs)
    · exact Or.inr (List.mem_cons_of_mem x h)

theorem pyMax_mem (l : List ℚ) (h : l ≠ []) : pyMax l ∈ l := by
  cases l with
  | nil => exact absurd rfl h
  | cons x xs =>
    rcases foldl_max_mem xs x with h | h
    · rw [pyMax, h]; exact List.mem_cons_self x xs
    · exact List.mem_cons_of_mem x h

theorem foldl_min_le (xs : List ℚ) (b : ℚ) :
    xs.foldl min b ≤ b ∧ ∀ a ∈ xs, xs.foldl min b ≤ a := by
  induction xs generalizing b with
  | nil => simp
  | cons x xs ih =>
    refine ⟨le_trans (ih (min b x)).1 (min_le_left b x), ?_⟩
    intro a ha
    rcases List.mem_cons.mp ha with h | h
    · subst h
      exact le_trans (ih (min b a)).1 (min_le_right b a)
    · exact (ih (min b x)).2 a h

theorem pyMin_le (l : List ℚ) (a : ℚ) (h : a ∈ l) : pyMin l ≤ a := by
  cases l with
  | nil => cases h
  | cons x xs =>
    rcases List.mem_cons.mp h with h | h
    · subst h
      exact (foldl_min_le xs a).1
    · exact (foldl_min_le xs x).2 a h

theorem lookup_map_key {α : Type} (cs : List String) (F : String → α) (k : String) :
    ((cs.map (fun c => (c, F c))).lookup k) =
      if k ∈ cs then some (F k) else none := by
  induction cs with
  | nil => simp
  | cons c cs ih =>
    by_cases h : k = c
    · subst h
      simp [List.lookup]
    · simp only [List.map, List.lookup, List.mem_cons]
      have hb : (k == c) = false := beq_eq_false_iff_ne.mpr h
      simp [hb, ih, h]

theorem lookup_mem_snd {α : Type} (l : List (String × α)) (k : String) (v : α)
    (h : l.lookup k = some v) : v ∈ l.map Prod.snd := by
  induction l with
  | nil => simp [List.lookup] at h
  | cons p rest ih =>
    obtain ⟨a, b⟩ := p
    rw [List.lookup_cons] at h
    by_cases hk : (k == a) = true
    · simp only [hk] at h
      cases h
      exact List.mem_cons_self _ _
    · rw [Bool.not_eq_true] at hk
      simp only [hk] at h
      exact List.mem_cons_of_mem _ (ih h)

theorem assocSet_lookup {α : Type} (l : List (String × α)) (k q : String) (v : α) :
    (assocSet l k v).lookup q = if q = k then some v else l.lookup q := by
  induction l with
  | nil =>
    by_cases h : q = k
    · subst h
      simp [assocSet, List.lookup]
    · have hb : (q == k) = false := beq_eq_false_iff_ne.mpr h
      simp [assocSet, List.lookup, hb, h]
  | cons p rest ih =>
    obtain ⟨a, b⟩ := p
    by_cases hak : a = k
    · subst hak
      by_cases hq : q = a
      · subst hq
        simp [assocSet, List.lookup]
      · have hb : (q == a) = false := beq_eq_false_iff_ne.mpr hq
        simp [assocSet, List.lookup, hb, hq]
    · have hab : (a == k) = false := beq_eq_false_iff_ne.mpr hak
      by_cases hq : q = a
      · subst hq
        have hqk : q ≠ k := hak
        simp [assocSet, hab, List.lookup, hqk]
      · have hqb : (q == a) = false := beq_eq_false_iff_ne.mpr hq
        simp [assocSet, hab, List.lookup, hqb, ih]

theorem foldl_assocSet_lookup {α : Type} (cs : List String) (F : String → α)
    (init : List (String × α)) (k : String) :
    ((cs.foldl (fun ws c => assocSet ws c (F c)) init).lookup k) =
      if k ∈ cs then some (F k) else init.lookup k := by
  induction cs generalizing init with
  | nil => simp
  | cons c cs ih =>
    rw [List.foldl, ih]
    by_cases hm : k ∈ cs
    · simp [hm, List.mem_cons]
    · rw [assocSet_lookup]
      by_cases hk : k = c
      · subst hk
        simp [hm]
      · simp [hm, hk, List.mem_cons]

theorem find?_eq_head?_filter {α : Type} (p : α → Bool) (l : List α) :
    l.find? p = (l.filter p).head? := by
  induction l with
  | nil => simp
  | cons x xs ih =>
    cases h : p x with
    | true =>
      rw [List.find?_cons_of_pos _ h, List.filter_cons_of_pos h, List.head?_cons]
    | false =>
      rw [List.find?_cons_of_neg _ (by simp [h]), List.filter_cons_of_neg (by simp [h]), ih]

theorem mem_enumFrom_of_mem {α : Type} (l : List α) (x : α) (n : ℕ) (h : x ∈ l) :
    ∃ i, (i, x) ∈ l.enumFrom n := by
  induction l generalizing n with
  | nil => cases h
  | cons a as ih =>
    rcases List.mem_cons.mp h with h | h
    · subst h
      exact ⟨n, List.mem_cons_self _ _⟩
    · obtain ⟨i, hi⟩ := ih (n + 1) h
      exact ⟨i, List.mem_cons_of_mem _ hi⟩

theorem mem_enum_of_mem {α : Type} (l : List α) (x : α) (h : x ∈ l) :
    ∃ i, (i, x) ∈ l.enum :=
  mem_enumFrom_of_mem l x 0 h

/-- If the node list has exactly one row named like C, and C is active with a
parent, then C is also the first grouped row found under that name. -/
theorem groupedNodes_find_of_unique (nl : List NodeRow) (C : NodeRow)
    (hC : nl.filter (fun n => n.name == C.name) = [C])
    (hact : C.active = true) (hpar : C.parent.isSome = true) :
    (groupedNodes nl).find? (fun g => g.name == C.name) = some C := by
  rw [groupedNodes, find?_eq_head?_filter, List.filter_filter]
  have hcomm : nl.filter (fun a => (a.name == C.name) && (a.parent.isSome && a.active))
      = (nl.filter (fun n => n.name == C.name)).filter (fun n => n.parent.isSome && n.active) := by
    rw [List.filter_filter]
    exact List.filter_congr (fun x _ => Bool.and_comm _ _)
  rw [hcomm, hC, List.filter_cons_of_pos (by simp [hact, hpar]), List.head?_cons]

/-- C7: a log row whose event name matches a grouped node C with parent B is
relabeled to B in exactly one substitution pass of _replace_grouped_events.
The theorem places no constraint on the row of B itself, so it covers in
particular a B that is grouped under some further node A: the relabeled name
is still B, never the parent of B. -/
theorem c7_single_level_substitution (nl : List NodeRow) (r : LogRow)
    (C : NodeRow) (B : String)
    (hC : nl.filter (fun n => n.name == C.name) = [C])
    (hact : C.active = true) (hpar : C.parent = some B)
    (hev : r.event = C.name) :
    (replaceGroupedEvents (groupedNodes nl) r).event = B := by
  rw [replaceGroupedEvents, hev,
    groupedNodes_find_of_unique nl C hC hact (by simp [hpar])]
  simp [hpar]

/-- Concrete instance for c7_single_level_substitution: C is grouped under B
and B is itself grouped under A; the row relabels to B, not to A. -/
theorem c7_single_level_substitution_witness :
    (replaceGroupedEvents
      (groupedNodes
        [{ name := "C", active := true, parent := some "B", alias_ := "C",
           changed_name := none, metrics := [("n", 0)] },
         { name := "B", active := true, parent := some "A", alias_ := "B",
           changed_name := none, metrics := [("n", 0)] },
         { name := "A", active := true, parent := none, alias_ := "A",
           changed_name := none, metrics := [("n", 0)] }])
      { user := 0, event := "C" }).event = "B" :=
  c7_single_level_substitution _ _
    { name := "C", active := true, parent := some "B", alias_ := "C",
      changed_name := none, metrics := [("n", 0)] } "B"
    (by decide) rfl rfl rfl

/-- Extracts the quotient from a successful Python float division. -/
theorem pyDiv_ok (a b nv : ℚ) (h : pyDiv a b = .ok nv) : nv = a / b := by
  rw [pyDiv] at h
  by_cases hb : b = 0
  · simp [hb] at h
  · simp only [hb, if_false] at h
    cases h
    rfl

/-- C8: in _get_norm_link_threshold, a requested key equal to the node list
default column is divided by the max of absolute values of the edge list
default column, while any other key is divided by the max of absolute values
of its own edge list column. -/
theorem c8_link_threshold_scales (cfg : ReteConfig) (el : List EdgeRow)
    (t res : Threshold) (k : String) (v : ℚ)
    (hmem : (k, v) ∈ t) (hnd : (t.map Prod.fst).Nodup)
    (hok : getNormLinkThreshold cfg el t = .ok res) :
    res.lookup k = some (v /
      (if k = cfg.nodelistDefaultCol
       then edgeColMaxAbs cfg el cfg.edgelistDefaultCol
       else edgeColMaxAbs cfg el k)) := by
  induction t generalizing res with
  | nil => cases hmem
  | cons p rest ih =>
    obtain ⟨k1, v1⟩ := p
    rw [getNormLinkThreshold] at hok
    cases hdiv : pyDiv v1 (linkScale cfg el k1) with
    | error e => rw [hdiv] at hok; cases hok
    | ok nv =>
      rw [hdiv] at hok
      cases hrest : getNormLinkThreshold cfg el rest with
      | error e => rw [hrest] at hok; cases hok
      | ok r =>
        rw [hrest] at hok
        cases hok
        rcases List.mem_cons.mp hmem with hm | hm
        · cases hm
          have hval : nv = v / linkScale cfg el k := pyDiv_ok _ _ _ hdiv
          rw [List.lookup_cons]
          simp only [BEq.refl]
          rw [hval, linkScale]
          by_cases hk : k = cfg.nodelistDefaultCol
          · simp [hk]
          · simp [hk, beq_eq_false_iff_ne.mpr hk]
        · have hk1 : k ≠ k1 := by
            intro hkk
            subst hkk
            have : k ∈ rest.map Prod.fst :=
              List.mem_map.mpr ⟨(k, v), hm, rfl⟩
            exact (List.nodup_cons.mp hnd).1 this
          rw [List.lookup_cons]
          simp only [beq_eq_false_iff_ne.mpr hk1]
          exact ih r hm (List.nodup_cons.mp hnd).2 hrest

/-- Concrete instance for c8_link_threshold_scales: the edge row carries a
custom column named like the node list default column with max 8, yet the
threshold under that key scales against the edge list default column max 4;
the custom key scales against its own column max 2. -/
theorem c8_link_threshold_scales_witness :
    (([("nd", (1 : ℚ)/2), ("m", (1 : ℚ)/2)] : Threshold).lookup "nd" =
      some ((2 : ℚ) /
        (if "nd" = "nd"
         then edgeColMaxAbs
           { nodelistCols := ["nd"], nodelistDefaultCol := "nd",
             edgelistDefaultCol := "ed", customCols := ["m"] }
           [{ source := "X", target := "Y", weight := 4,
              custom := [("m", 2), ("nd", 8)], type := none, weight_norm := none }]
           "ed"
         else edgeColMaxAbs
           { nodelistCols := ["nd"], nodelistDefaultCol := "nd",
             edgelistDefaultCol := "ed", customCols := ["m"] }
           [{ source := "X", target := "Y", weight := 4,
              custom := [("m", 2), ("nd", 8)], type := none, weight_norm := none }]
           "nd"))) :=
  c8_link_threshold_scales
    { nodelistCols := ["nd"], nodelistDefaultCol := "nd",
      edgelistDefaultCol := "ed", customCols := ["m"] }
    [{ source := "X", target := "Y", weight := 4,
       custom := [("m", 2), ("nd", 8)], type := none, weight_norm := none }]
    [("nd", 2), ("m", 1)] [("nd", (1 : ℚ)/2), ("m", (1 : ℚ)/2)] "nd" 2
    (by decide) (by decide)
    (by simp [getNormLinkThreshold, linkScale, edgeColMaxAbs, getEdgeCol, pyDiv, pyMax]; norm_num)

/-- A requested node threshold key whose column scale is zero makes the whole
normalization raise (the Python loop dies at the first zero division). -/
theorem getNormNodeThreshold_error (nl : List NodeRow) (t : Threshold)
    (k : String) (v : ℚ) (hmem : (k, v) ∈ t) (hz : nodeColMaxAbs nl k = 0) :
    getNormNodeThreshold nl t = .error ScaleError.zeroDivision := by
  induction t with
  | nil => cases hmem
  | cons p rest ih =>
    obtain ⟨k1, v1⟩ := p
    rw [getNormNodeThreshold]
    cases hdiv : pyDiv v1 (nodeColMaxAbs nl k1) with
    | error e => cases e; rfl
    | ok nv =>
      rcases List.mem_cons.mp hmem with hm | hm
      · cases hm
        rw [pyDiv, if_pos hz] at hdiv
        cases hdiv
      · rw [ih hm]

/-- A requested link threshold key whose governing scale is zero makes the
whole normalization raise. -/
theorem getNormLinkThreshold_error (cfg : ReteConfig) (el : List EdgeRow)
    (t : Threshold) (k : String) (v : ℚ)
    (hmem : (k, v) ∈ t) (hz : linkScale cfg el k = 0) :
    getNormLinkThreshold cfg el t = .error ScaleError.zeroDivision := by
  induction t with
  | nil => cases hmem
  | cons p rest ih =>
    obtain ⟨k1, v1⟩ := p
    rw [getNormLinkThreshold]
    cases hdiv : pyDiv v1 (linkScale cfg el k1) with
    | error e => cases e; rfl
    | ok nv =>
      rcases List.mem_cons.mp hmem with hm | hm
      · cases hm
        rw [pyDiv, if_pos hz] at hdiv
        cases hdiv
      · rw [ih hm]

/-- C2: when a node threshold is requested for a metric whose max of absolute
values over the current (nonempty) node list is zero, or a link threshold for
a key whose governing edge list scale is zero, the plot request fails with a
ScaleError surfaced to the caller and the session state, in particular its
node list and edge list, is returned exactly as it was (all-or-nothing; no
step preceding the normalizations mutates the session).  The nonemptiness
assumptions keep the modelled zero scale a genuine zero rather than the NaN a
pandas max yields on an empty column. -/
theorem c2_zero_scale_error_state_unchanged (cfg : ReteConfig)
    (sl : List EdgeRow → List SpringPos) (np : NodeParams)
    (width height : ℚ) (nThr lThr : Option Threshold) (s : ReteGraphState)
    (hs1 : s.settingsNodesThr = none) (hs2 : s.settingsLinksThr = none)
    (hzero :
      (∃ t, nThr = some t ∧ ∃ k v, (k, v) ∈ t ∧ s.nodelist ≠ [] ∧
        nodeColMaxAbs s.nodelist k = 0)
      ∨ (∃ t, lThr = some t ∧ ∃ k v, (k, v) ∈ t ∧ s.edgelist ≠ [] ∧
        linkScale cfg s.edgelist k = 0)) :
    plotGraph cfg sl np width height nThr lThr s =
      (s, .error ScaleError.zeroDivision) := by
  rcases hzero with ⟨t, hnt, k, v, hkv, _, hz⟩ | ⟨t, hlt, k, v, hkv, _, hz⟩
  · simp only [plotGraph, hs1, hnt,
      getNormNodeThreshold_error s.nodelist t k v hkv hz]
  · simp only [plotGraph, hs1, hs2, hlt]
    cases nThr with
    | none =>
      simp only [getNormLinkThreshold_error cfg s.edgelist t k v hkv hz]
    | some t0 =>
      cases hok : getNormNodeThreshold s.nodelist t0 with
      | error e => cases e; simp [hok]
      | ok r =>
        simp only [hok, getNormLinkThreshold_error cfg s.edgelist t k v hkv hz]

/-- A one-column configuration used by concrete instances below. -/
def c2cfg : ReteConfig :=
  { nodelistCols := ["m"], nodelistDefaultCol := "m",
    edgelistDefaultCol := "m", customCols := [] }

/-- A session whose single node has metric value 0, used by the concrete
instance below. -/
def c2state : ReteGraphState :=
  { clickstream := []
  , nodelist := [{ name := "A", active := true, parent := none, alias_ := "A", changed_name := none, metrics := [("m", 0)] }]
  , edgelist := [], layout := none
  , settingsNodesThr := none, settingsLinksThr := none }

/-- Concrete instance for c2_zero_scale_error_state_unchanged: one node whose
only metric value is 0 and a node threshold requested for that metric. -/
theorem c2_zero_scale_error_state_unchanged_witness :
    plotGraph c2cfg (fun _ => []) [] 960 900 (some [("m", 5)]) none c2state =
      (c2state, .error ScaleError.zeroDivision) :=
  c2_zero_scale_error_state_unchanged _ _ _ _ _ _ _ _ rfl rfl
    (Or.inl ⟨[("m", 5)], rfl, "m", 5, by decide, by decide, by decide⟩)

/-- C6: with a degenerate (single point, hence zero-width and zero-height)
bounding box, _calc_layout does not detect the zero range and does not raise:
the numpy elementwise rescale divides zero by zero and silently yields
non-finite coordinates (none), which is exactly what the specification says
must not happen.  This theorem evaluates the embedded code at the failing
input as evidence of the divergence. -/
theorem c6_degenerate_rescale_silent_nonfinite :
    calcLayout (fun _ => [{ name := "A", x := 0, y := 0 }]) [] 960 900 =
      [{ name := "A", x := none, y := none }] := by
  simp [calcLayout, pyMin, pyMax, npDiv]

/-- Looks up the stored manual layout row for a node name, as _use_layout
does per computed position. -/
def layoutFind (lay : Option (List LayoutNode)) (nm : String) : Option LayoutNode :=
  match lay with
  | none => none
  | some L => L.find? (fun m => m.name == nm)

/-- C5 (amended): on a canvas wide and tall enough to hold the fixed margins
(width at least 150, height at least 100) and with a non-degenerate bounding
box, every laid-out node without a stored manual override receives finite
coordinates inside the margin box, and every node with a stored manual
override is placed verbatim at its stored coordinates, untouched by the
rescale. -/
theorem c5_layout_bounds_and_override (sl : List EdgeRow → List SpringPos)
    (el : List EdgeRow) (lay : Option (List LayoutNode)) (w h : ℚ)
    (hw : 150 ≤ w) (hh : 100 ≤ h)
    (hx : pyMin ((sl el).map (·.x)) < pyMax ((sl el).map (·.x)))
    (hy : pyMin ((sl el).map (·.y)) < pyMax ((sl el).map (·.y))) :
    ∀ p ∈ useLayout lay (calcLayout sl el w h),
      (layoutFind lay p.name = none →
        p.x.isSome = true ∧ p.y.isSome = true ∧
        (∀ qx, p.x = some qx → 75 ≤ qx ∧ qx ≤ w - 75) ∧
        (∀ qy, p.y = some qy → 50 ≤ qy ∧ qy ≤ h - 50)) ∧
      (∀ m : LayoutNode, layoutFind lay p.name = some m →
        p.x = some m.x ∧ p.y = some m.y) := by
  have hdx : pyMax ((sl el).map (·.x)) - pyMin ((sl el).map (·.x)) ≠ 0 :=
    ne_of_gt (sub_pos.mpr hx)
  have hdy : pyMax ((sl el).map (·.y)) - pyMin ((sl el).map (·.y)) ≠ 0 :=
    ne_of_gt (sub_pos.mpr hy)
  have hcalc : ∀ p ∈ calcLayout sl el w h,
      (∃ q ∈ sl el,
        p = { name := q.name
            , x := some ((q.x - pyMin ((sl el).map (·.x))) / (pyMax ((sl el).map (·.x)) - pyMin ((sl el).map (·.x))) * (w - 150) + 75)
            , y := some ((q.y - pyMin ((sl el).map (·.y))) / (pyMax ((sl el).map (·.y)) - pyMin ((sl el).map (·.y))) * (h - 100) + 50) }) := by
    intro p hp
    rw [calcLayout] at hp
    simp only [List.mem_map] at hp
    obtain ⟨q, hq, hpq⟩ := hp
    refine ⟨q, hq, ?_⟩
    rw [← hpq, npDiv, npDiv, if_neg hdx, if_neg hdy]
    rfl
  have hbound : ∀ q ∈ sl el,
      (75 ≤ (q.x - pyMin ((sl el).map (·.x))) /
          (pyMax ((sl el).map (·.x)) - pyMin ((sl el).map (·.x))) * (w - 150) + 75 ∧
        (q.x - pyMin ((sl el).map (·.x))) /
          (pyMax ((sl el).map (·.x)) - pyMin ((sl el).map (·.x))) * (w - 150) + 75 ≤ w - 75) ∧
      (50 ≤ (q.y - pyMin ((sl el).map (·.y))) /
          (pyMax ((sl el).map (·.y)) - pyMin ((sl el).map (·.y))) * (h - 100) + 50 ∧
        (q.y - pyMin ((sl el).map (·.y))) /
          (pyMax ((sl el).map (·.y)) - pyMin ((sl el).map (·.y))) * (h - 100) + 50 ≤ h - 50) := by
    intro q hq
    have hxm : q.x ∈ (sl el).map (·.x) := List.mem_map.mpr ⟨q, hq, rfl⟩
    have hym : q.y ∈ (sl el).map (·.y) := List.mem_map.mpr ⟨q, hq, rfl⟩
    have htx0 : 0 ≤ (q.x - pyMin ((sl el).map (·.x))) /
        (pyMax ((sl el).map (·.x)) - pyMin ((sl el).map (·.x))) :=
      div_nonneg (sub_nonneg.mpr (pyMin_le _ _ hxm)) (le_of_lt (sub_pos.mpr hx))
    have htx1 : (q.x - pyMin ((sl el).map (·.x))) /
        (pyMax ((sl el).map (·.x)) - pyMin ((sl el).map (·.x))) ≤ 1 :=
      (div_le_one (sub_pos.mpr hx)).mpr (by linarith [le_pyMax _ _ hxm])
    have hty0 : 0 ≤ (q.y - pyMin ((sl el).map (·.y))) /
        (pyMax ((sl el).map (·.y)) - pyMin ((sl el).map (·.y))) :=
      div_nonneg (sub_nonneg.mpr (pyMin_le _ _ hym)) (le_of_lt (sub_pos.mpr hy))
    have hty1 : (q.y - pyMin ((sl el).map (·.y))) /
        (pyMax ((sl el).map (·.y)) - pyMin ((sl el).map (·.y))) ≤ 1 :=
      (div_le_one (sub_pos.mpr hy)).mpr (by linarith [le_pyMax _ _ hym])
    have hmx : (q.x - pyMin ((sl el).map (·.x))) /
        (pyMax ((sl el).map (·.x)) - pyMin ((sl el).map (·.x))) * (w - 150) ≤ w - 150 :=
      mul_le_of_le_one_left (by linarith) htx1
    have hmy : (q.y - pyMin ((sl el).map (·.y))) /
        (pyMax ((sl el).map (·.y)) - pyMin ((sl el).map (·.y))) * (h - 100) ≤ h - 100 :=
      mul_le_of_le_one_left (by linarith) hty1
    have hpx : 0 ≤ (q.x - pyMin ((sl el).map (·.x))) /
        (pyMax ((sl el).map (·.x)) - pyMin ((sl el).map (·.x))) * (w - 150) :=
      mul_nonneg htx0 (by linarith)
    have hpy : 0 ≤ (q.y - pyMin ((sl el).map (·.y))) /
        (pyMax ((sl el).map (·.y)) - pyMin ((sl el).map (·.y))) * (h - 100) :=
      mul_nonneg hty0 (by linarith)
    exact ⟨⟨by linarith, by linarith⟩, ⟨by linarith, by linarith⟩⟩
  intro p hp
  cases lay with
  | none =>
    rw [useLayout] at hp
    obtain ⟨q, hq, hpq⟩ := hcalc p hp
    constructor
    · intro _
      subst hpq
      refine ⟨rfl, rfl, ?_, ?_⟩
      · intro qx hqx
        cases hqx
        exact (hbound q hq).1
      · intro qy hqy
        cases hqy
        exact (hbound q hq).2
    · intro m hm
      rw [layoutFind] at hm
      cases hm
  | some L =>
    rw [useLayout] at hp
    simp only [List.mem_map] at hp
    obtain ⟨p0, hp0, hov⟩ := hp
    obtain ⟨q, hq, hpq⟩ := hcalc p0 hp0
    cases hfind : L.find? (fun m => m.name == p0.name) with
    | none =>
      rw [hfind] at hov
      have hpp : p = p0 := hov.symm
      subst hpp
      constructor
      · intro _
        subst hpq
        refine ⟨rfl, rfl, ?_, ?_⟩
        · intro qx hqx
          cases hqx
          exact (hbound q hq).1
        · intro qy hqy
          cases hqy
          exact (hbound q hq).2
      · intro m hm
        rw [layoutFind] at hm
        rw [hm] at hfind
        cases hfind
    | some m0 =>
      rw [hfind] at hov
      have hpp : p = { name := p0.name, x := some m0.x, y := some m0.y } := hov.symm
      subst hpp
      have hname : layoutFind (some L) p0.name = some m0 := by
        rw [layoutFind, hfind]
      constructor
      · intro hn
        rw [hname] at hn
        cases hn
      · intro m hm
        rw [hname] at hm
        cases hm
        exact ⟨rfl, rfl⟩

/-- C5 counterexample to the claim as stated: for the canvas width 100 the
margin box [75, width - 75] is empty, and the computed coordinate 25 of the
non-overridden node B lies outside it, so the universally quantified claim
over every canvas width and height is false on the code; the fixed margins
demand width at least 150 and height at least 100. -/
theorem c5_layout_bounds_counterexample :
    useLayout none (calcLayout
        (fun _ => [{ name := "A", x := 0, y := 0 }, { name := "B", x := 1, y := 1 }])
        [] 100 900) =
      [{ name := "A", x := some 75, y := some 50 },
       { name := "B", x := some 25, y := some 850 }]
    ∧ ¬((75 : ℚ) ≤ 25 ∧ (25 : ℚ) ≤ 100 - 75) := by
  constructor
  · simp [useLayout, calcLayout, pyMin, pyMax, npDiv]
    norm_num
  · norm_num

/-- The spring positions used by the concrete layout instance. -/
def c5sl : List EdgeRow → List SpringPos :=
  fun _ => [{ name := "A", x := 0, y := 0 }, { name := "B", x := 1, y := 1 }]

/-- The stored manual layout used by the concrete layout instance. -/
def c5lay : Option (List LayoutNode) := some [{ name := "A", x := 500, y := 400 }]

/-- Concrete instance for c5_layout_bounds_and_override on a 960 by 900
canvas: the non-overridden node B lands at 885, inside [75, 885], and the
overridden node A keeps its stored coordinates 500 and 400 verbatim. -/
theorem c5_layout_bounds_and_override_witness :
    ((75 : ℚ) ≤ 885 ∧ (885 : ℚ) ≤ 960 - 75) ∧
    ((⟨"A", some 500, some 400⟩ : PosEntry).x = some (500 : ℚ) ∧
     (⟨"A", some 500, some 400⟩ : PosEntry).y = some (400 : ℚ)) := by
  have h := c5_layout_bounds_and_override c5sl [] c5lay 960 900
    (by norm_num) (by norm_num)
    (by simp [c5sl, pyMin, pyMax])
    (by simp [c5sl, pyMin, pyMax])
  have hmemB : (⟨"B", some 885, some 850⟩ : PosEntry) ∈
      useLayout c5lay (calcLayout c5sl [] 960 900) := by
    simp [c5sl, c5lay, useLayout, calcLayout, pyMin, pyMax, npDiv, layoutFind]
    norm_num
  have hmemA : (⟨"A", some 500, some 400⟩ : PosEntry) ∈
      useLayout c5lay (calcLayout c5sl [] 960 900) := by
    simp [c5sl, c5lay, useLayout, calcLayout, pyMin, pyMax, npDiv, layoutFind]
  refine ⟨((h _ hmemB).1 ?_).2.2.1 885 rfl, (h _ hmemA).2 ⟨"A", 500, 400⟩ ?_⟩
  · rfl
  · rfl

/-- The links built by _prepare_edges are exactly one per row whose two
endpoint lookups both succeed. -/
theorem filterMap_lookup_length (ns : List (String × PreparedNode))
    (g : EdgeRow → PreparedNode → PreparedNode → PreparedLink) (l : List EdgeRow) :
    (l.filterMap (fun row =>
      match ns.lookup row.source, ns.lookup row.target with
      | some sn, some tn => some (g row sn tn)
      | some _, none => none
      | none, _ => none)).length =
    (l.filter (fun row =>
      ((ns.lookup row.source).isSome && (ns.lookup row.target).isSome))).length := by
  induction l with
  | nil => rfl
  | cons row rest ih =>
    cases hs : ns.lookup row.source with
    | none => simp [List.filterMap_cons, List.filter_cons, hs, ih]
    | some sn =>
      cases ht : ns.lookup row.target with
      | none => simp [List.filterMap_cons, List.filter_cons, hs, ht, ih]
      | some tn => simp [List.filterMap_cons, List.filter_cons, hs, ht, ih]

/-- C9: every link of the payload built by _prepare_edges references source
and target indices of nodes present in the concurrently prepared node list,
and the number of links equals the number of edge rows whose two endpoints
resolve in the prepared node set, so every row with an unresolved endpoint is
silently dropped and never serialized. -/
theorem c9_edge_drop_invariant (cfg : ReteConfig) (nl : List NodeRow)
    (np : Option NodeParams) (pos : Option (List PosEntry)) (el : List EdgeRow) :
    (∀ link ∈ (prepareEdges cfg el (prepareNodes cfg nl np pos).2).2,
      link.sourceIndex ∈ ((prepareNodes cfg nl np pos).1.map (·.index)) ∧
      link.targetIndex ∈ ((prepareNodes cfg nl np pos).1.map (·.index))) ∧
    ((prepareEdges cfg el (prepareNodes cfg nl np pos).2).2.length =
      ((prepareEdges cfg el (prepareNodes cfg nl np pos).2).1.filter
        (fun row => (((prepareNodes cfg nl np pos).2.lookup row.source).isSome &&
          ((prepareNodes cfg nl np pos).2.lookup row.target).isSome))).length) := by
  have hfst : (prepareNodes cfg nl np pos).1 =
      (prepareNodes cfg nl np pos).2.map Prod.snd := rfl
  constructor
  · intro link hlink
    simp only [prepareEdges, List.mem_filterMap] at hlink
    obtain ⟨row, _, hrow⟩ := hlink
    cases hs : (prepareNodes cfg nl np pos).2.lookup row.source with
    | none => rw [hs] at hrow; cases hrow
    | some sn =>
      cases ht : (prepareNodes cfg nl np pos).2.lookup row.target with
      | none => rw [hs, ht] at hrow; cases hrow
      | some tn =>
        rw [hs, ht] at hrow
        cases hrow
        constructor
        · exact List.mem_map.mpr ⟨sn, hfst ▸ lookup_mem_snd _ _ _ hs, rfl⟩
        · exact List.mem_map.mpr ⟨tn, hfst ▸ lookup_mem_snd _ _ _ ht, rfl⟩
  · exact filterMap_lookup_length (prepareNodes cfg nl np pos).2
      (fun row sn tn =>
        { sourceIndex := sn.index, targetIndex := tn.index,
          weights := linkWeights cfg
            (el.map (fun e => { e with weight_norm := some (npDiv e.weight (pyMax (el.map (fun x => |x.weight|)))) })) row,
          type := row.type.getD "" })
      (el.map (fun e => { e with weight_norm := some (npDiv e.weight (pyMax (el.map (fun x => |x.weight|)))) }))

/-- The node list used by the concrete payload instance. -/
def c9nl : List NodeRow :=
  [{ name := "A", active := true, parent := none, alias_ := "A", changed_name := none, metrics := [("m", 1)] },
   { name := "B", active := true, parent := none, alias_ := "B", changed_name := none, metrics := [("m", 1)] }]

/-- The edge list used by the concrete payload instance; the second row
references the unknown node C and is dropped. -/
def c9el : List EdgeRow :=
  [{ source := "A", target := "B", weight := 1, custom := [], type := none, weight_norm := none },
   { source := "A", target := "C", weight := 1, custom := [], type := none, weight_norm := none }]

/-- Concrete instance for c9_edge_drop_invariant: the serialized link between
the two known nodes carries indices present in the prepared node list. -/
theorem c9_edge_drop_invariant_witness :
    (({ sourceIndex := 0, targetIndex := 1, weights := [("m", { weight_norm := some 1, weight := 1 })], type := "" } : PreparedLink).sourceIndex ∈
      ((prepareNodes c2cfg c9nl none none).1.map (·.index))) ∧
    (({ sourceIndex := 0, targetIndex := 1, weights := [("m", { weight_norm := some 1, weight := 1 })], type := "" } : PreparedLink).targetIndex ∈
      ((prepareNodes c2cfg c9nl none none).1.map (·.index))) :=
  (c9_edge_drop_invariant c2cfg c9nl none none c9el).1 _
    (by simp [c9nl, c9el, c2cfg, prepareEdges, prepareNodes, linkWeights,
          findRow, mkDegree, npDiv, pyMax, getMetric, nodeColMax, edgeCustomMaxAbs,
          List.enum, List.enumFrom, List.lookup])

/-- C10: after the recalculate handler returns, the session edge list has been
mutated in place: every row carries the type column set to suit and a
weight_norm column added by _prepare_edges, so both columns persist in the
session state beyond the returned payload. -/
theorem c10_recalc_mutates_session_edgelist (cfg : ReteConfig)
    (edits : List NodeEdit) (s : ReteGraphState) :
    ∀ e ∈ ((onRecalcRequest cfg edits s).1).edgelist,
      e.type = some "suit" ∧ e.weight_norm.isSome = true := by
  intro e he
  simp only [onRecalcRequest, prepareEdges, List.map_map, List.mem_map,
    Function.comp] at he
  obtain ⟨e0, _, he0⟩ := he
  cases he0
  exact ⟨rfl, rfl⟩

/-- The session used by the concrete recalculate instance: one active node A
and a clickstream with the single transition A to A. -/
def c10s : ReteGraphState :=
  { clickstream := [{ user := 0, event := "A" }, { user := 0, event := "A" }]
  , nodelist := [{ name := "A", active := true, parent := none, alias_ := "A", changed_name := none, metrics := [("m", 0)] }]
  , edgelist := [], layout := none
  , settingsNodesThr := none, settingsLinksThr := none }

/-- Concrete instance for c10_recalc_mutates_session_edgelist: the recomputed
A to A edge row sits in the session edge list with type suit and a populated
weight_norm column after the request returns. -/
theorem c10_recalc_mutates_session_edgelist_witness :
    ({ source := "A", target := "A", weight := 1, custom := [], type := some "suit", weight_norm := some (some 1) } : EdgeRow).type = some "suit" ∧
    ({ source := "A", target := "A", weight := 1, custom := [], type := some "suit", weight_norm := some (some 1) } : EdgeRow).weight_norm.isSome = true :=
  c10_recalc_mutates_session_edgelist c2cfg [] c10s _
    (by simp [c10s, c2cfg, onRecalcRequest, onNodelistUpdated, recalculate,
          relabeledLog, filteredLog, activeNodes, groupedNodes,
          replaceGroupedEvents, createEdgelist, createNodelist, transitions,
          updateNodeAfterRecalc, setMetric, getMetric, prepareEdges,
          prepareNodes, mkDegree, findRow, nodeColMax, npDiv, pyMax,
          List.enum, List.enumFrom, List.lookup])

/-- Both endpoints of every transition pair are event names of the log. -/
theorem mem_transitions (l : List LogRow) (p : String × String)
    (h : p ∈ transitions l) :
    p.1 ∈ l.map LogRow.event ∧ p.2 ∈ l.map LogRow.event := by
  match l with
  | [] => rw [transitions] at h; cases h
  | [a] => rw [transitions] at h; cases h
  | a :: b :: rest =>
    rw [transitions] at h
    rcases List.mem_append.mp h with h1 | h1
    · by_cases hu : (a.user == b.user) = true
      · rw [if_pos hu] at h1
        rcases List.mem_cons.mp h1 with h2 | h2
        · subst h2
          refine ⟨List.mem_map.mpr ⟨a, List.mem_cons_self _ _, rfl⟩,
            List.mem_map.mpr ⟨b, List.mem_cons_of_mem _ (List.mem_cons_self _ _), rfl⟩⟩
        · cases h2
      · rw [if_neg hu] at h1
        cases h1
    · have ih := mem_transitions (b :: rest) p h1
      refine ⟨?_, ?_⟩
      · rcases List.mem_map.mp ih.1 with ⟨x, hx, hxe⟩
        exact List.mem_map.mpr ⟨x, List.mem_cons_of_mem _ hx, hxe⟩
      · rcases List.mem_map.mp ih.2 with ⟨x, hx, hxe⟩
        exact List.mem_map.mpr ⟨x, List.mem_cons_of_mem _ hx, hxe⟩

/-- Both endpoints of every created edge row are event names of the log it
was built from. -/
theorem createEdgelist_endpoints (l : List LogRow) (e : EdgeRow)
    (h : e ∈ createEdgelist l) :
    e.source ∈ l.map LogRow.event ∧ e.target ∈ l.map LogRow.event := by
  rw [createEdgelist] at h
  simp only [List.mem_map] at h
  obtain ⟨p, hp, hpe⟩ := h
  have hmem := mem_transitions l p (List.mem_dedup.mp hp)
  rw [← hpe]
  exact hmem

/-- If the active node A carries a parent and no active node is grouped under
the name of A, then no row of the relabeled log carries the event name of A:
the rows of A itself are relabeled away and nothing else is relabeled into
the name of A. -/
theorem relabeledLog_event_ne (nl : List NodeRow) (log : List LogRow)
    (A : NodeRow) (hmem : A ∈ nl) (hact : A.active = true)
    (hpar : A.parent.isSome = true)
    (hnp : ∀ n ∈ nl, n.active = true → n.parent ≠ some A.name) :
    ∀ r ∈ relabeledLog nl log, r.event ≠ A.name := by
  intro r hr
  rw [relabeledLog] at hr
  simp only [List.mem_map] at hr
  obtain ⟨r0, _, hrep⟩ := hr
  subst hrep
  rw [replaceGroupedEvents]
  cases hfind : (groupedNodes nl).find? (fun g => g.name == r0.event) with
  | none =>
    simp only
    intro hc
    have hAg : A ∈ groupedNodes nl :=
      List.mem_filter.mpr ⟨hmem, by simp [hpar, hact]⟩
    have := List.find?_eq_none.mp hfind A hAg
    simp [hc] at this
  | some g =>
    simp only
    have hgm := List.mem_filter.mp (List.mem_of_find?_eq_some hfind)
    have hps : g.parent.isSome = true := by
      have := hgm.2
      simp only [Bool.and_eq_true] at this
      exact this.1
    have hga : g.active = true := by
      have := hgm.2
      simp only [Bool.and_eq_true] at this
      exact this.2
    obtain ⟨p0, hp0⟩ := Option.isSome_iff_exists.mp hps
    rw [hp0]
    intro hc
    simp only [Option.getD_some] at hc
    exact hnp g hgm.1 hga (by rw [hp0, hc])

/-- C1 (amended): let A be an active node with parent B, the only node list
row named like A, and let no active node be grouped under the name of A.
After recomputation no edge of the new edge list has A as source or target,
and every filtered log row carrying the event of A is relabeled to B.  The
added premise about nodes grouped under A is forced by the single-level
substitution policy: a node C grouped under A puts the name of A back into
the relabeled log, as the recorded counterexample shows. -/
theorem c1_grouping_attribution_amended (cfg : ReteConfig) (s : ReteGraphState)
    (A : NodeRow) (B : String)
    (hA : s.nodelist.filter (fun n => n.name == A.name) = [A])
    (hact : A.active = true) (hpar : A.parent = some B)
    (hnp : ∀ n ∈ s.nodelist, n.active = true → n.parent ≠ some A.name) :
    (∀ e ∈ (recalculate cfg s).edgelist, e.source ≠ A.name ∧ e.target ≠ A.name) ∧
    (∀ r ∈ filteredLog s.nodelist s.clickstream, r.event = A.name →
      replaceGroupedEvents (groupedNodes s.nodelist) r = { r with event := B }) := by
  have hmem : A ∈ s.nodelist := by
    have : A ∈ s.nodelist.filter (fun n => n.name == A.name) := by
      rw [hA]; exact List.mem_cons_self _ _
    exact List.mem_of_mem_filter this
  constructor
  · intro e he
    have hend := createEdgelist_endpoints _ e he
    have hne := relabeledLog_event_ne s.nodelist s.clickstream A hmem hact
      (by simp [hpar]) hnp
    constructor
    · rcases List.mem_map.mp hend.1 with ⟨r, hr, hre⟩
      rw [← hre]
      exact hne r hr
    · rcases List.mem_map.mp hend.2 with ⟨r, hr, hre⟩
      rw [← hre]
      exact hne r hr
  · intro r _ hev
    rw [replaceGroupedEvents, hev,
      groupedNodes_find_of_unique s.nodelist A hA hact (by simp [hpar])]
    simp [hpar, hev]

/-- A configuration with the single metric column n, for the recomputation
instances below. -/
def c1cfg : ReteConfig :=
  { nodelistCols := ["n"], nodelistDefaultCol := "n",
    edgelistDefaultCol := "n", customCols := [] }

/-- A session with A grouped under B, C grouped under A, and a clickstream of
two C events of one case. -/
def c1s : ReteGraphState :=
  { clickstream := [{ user := 0, event := "C" }, { user := 0, event := "C" }]
  , nodelist :=
      [{ name := "A", active := true, parent := some "B", alias_ := "A", changed_name := none, metrics := [("n", 0)] },
       { name := "B", active := true, parent := none, alias_ := "B", changed_name := none, metrics := [("n", 0)] },
       { name := "C", active := true, parent := some "A", alias_ := "C", changed_name := none, metrics := [("n", 0)] }]
  , edgelist := [], layout := none
  , settingsNodesThr := none, settingsLinksThr := none }

/-- C1 counterexample to the claim as stated: the node A is active with
parent B, yet after recomputation the edge list contains the self loop
A to A, because the node C grouped under A is relabeled into the name of A by
the single-level substitution.  So the claim fails without the premise that
no other active node is grouped under A. -/
theorem c1_grouping_attribution_counterexample :
    (recalculate c1cfg c1s).edgelist =
      [{ source := "A", target := "A", weight := 1, custom := [], type := none, weight_norm := none }] ∧
    c1s.nodelist.filter (fun n => n.name == "A") =
      [{ name := "A", active := true, parent := some "B", alias_ := "A", changed_name := none, metrics := [("n", 0)] }] := by
  constructor
  · simp [c1s, c1cfg, recalculate, relabeledLog, filteredLog, activeNodes,
      groupedNodes, replaceGroupedEvents, createEdgelist, createNodelist,
      transitions, updateNodeAfterRecalc, setMetric, getMetric]
  · decide

/-- A session with a lone grouping of B under A and one transition B then A
of a single case. -/
def c1ws : ReteGraphState :=
  { clickstream := [{ user := 0, event := "A" }, { user := 0, event := "B" }]
  , nodelist :=
      [{ name := "A", active := true, parent := some "B", alias_ := "A", changed_name := none, metrics := [("n", 0)] },
       { name := "B", active := true, parent := none, alias_ := "B", changed_name := none, metrics := [("n", 0)] }]
  , edgelist := [], layout := none
  , settingsNodesThr := none, settingsLinksThr := none }

/-- Concrete instance for c1_grouping_attribution_amended: nothing is grouped
under A, the recomputed edge B to B avoids the name A on both endpoints, and
the log row of A is relabeled to B. -/
theorem c1_grouping_attribution_witness :
    (({ source := "B", target := "B", weight := 1, custom := [], type := none, weight_norm := none } : EdgeRow).source ≠ "A" ∧
     ({ source := "B", target := "B", weight := 1, custom := [], type := none, weight_norm := none } : EdgeRow).target ≠ "A") ∧
    replaceGroupedEvents (groupedNodes c1ws.nodelist) { user := 0, event := "A" } =
      { user := 0, event := "B" } := by
  have h := c1_grouping_attribution_amended c1cfg c1ws
    { name := "A", active := true, parent := some "B", alias_ := "A", changed_name := none, metrics := [("n", 0)] }
    "B" (by decide) rfl rfl (by decide)
  refine ⟨h.1 _ ?_, h.2 { user := 0, event := "A" } (by decide) rfl⟩
  simp [c1ws, c1cfg, recalculate, relabeledLog, filteredLog, activeNodes,
    groupedNodes, replaceGroupedEvents, createEdgelist, createNodelist,
    transitions, updateNodeAfterRecalc, setMetric, getMetric]

theorem enumFrom_mem_snd {α : Type} (l : List α) (p : ℕ × α) (n : ℕ)
    (h : p ∈ l.enumFrom n) : p.2 ∈ l := by
  induction l generalizing n with
  | nil => cases h
  | cons a as ih =>
    rcases List.mem_cons.mp h with h1 | h1
    · rw [h1]
      exact List.mem_cons_self _ _
    · exact List.mem_cons_of_mem _ (ih (n + 1) h1)

theorem findRow_mem (nl : List NodeRow) (nm : String)
    (h : nm ∈ nl.map (·.name)) : findRow nl nm ∈ nl := by
  rw [findRow]
  cases hf : nl.find? (fun r => r.name == nm) with
  | none =>
    rcases List.mem_map.mp h with ⟨r, hr, hre⟩
    have := List.find?_eq_none.mp hf r hr
    simp [hre] at this
  | some r => simpa using List.mem_of_find?_eq_some hf

theorem find?_name_nodup (nl : List NodeRow) (r : NodeRow)
    (hnd : (nl.map (·.name)).Nodup) (hr : r ∈ nl) :
    nl.find? (fun x => x.name == r.name) = some r := by
  induction nl with
  | nil => cases hr
  | cons a rest ih =>
    rcases List.mem_cons.mp hr with h | h
    · subst h
      exact List.find?_cons_of_pos _ (by simp)
    · have hna : a.name ≠ r.name := by
        intro hEq
        have hmm : r.name ∈ rest.map (·.name) := List.mem_map.mpr ⟨r, h, rfl⟩
        rw [← hEq] at hmm
        exact (List.nodup_cons.mp hnd).1 hmm
      rw [List.find?_cons_of_neg _ (by simp [hna])]
      exact ih (List.nodup_cons.mp hnd).2 h

theorem findRow_eq_of_nodup (nl : List NodeRow) (r : NodeRow)
    (hnd : (nl.map (·.name)).Nodup) (hr : r ∈ nl) :
    findRow nl r.name = r := by
  rw [findRow, find?_name_nodup nl r hnd hr]
  rfl

/-- Every prepared node takes its degree block from the first node list row
bearing its (deduplicated) name. -/
theorem prepareNodes_mem (cfg : ReteConfig) (nl : List NodeRow)
    (np : Option NodeParams) (pos : Option (List PosEntry)) (n : PreparedNode)
    (h : n ∈ (prepareNodes cfg nl np pos).1) :
    ∃ nm ∈ (nl.map (·.name)).dedup,
      n.degree = mkDegree nl cfg.nodelistCols (findRow nl nm) := by
  simp only [prepareNodes, List.map_map, List.mem_map] at h
  obtain ⟨⟨i, nm⟩, hmem, hn⟩ := h
  refine ⟨nm, enumFrom_mem_snd _ _ _ hmem, ?_⟩
  rw [← hn]
  rfl

/-- Every deduplicated node list name yields a prepared node whose degree
block comes from the first row of that name. -/
theorem prepareNodes_mem_of_name (cfg : ReteConfig) (nl : List NodeRow)
    (np : Option NodeParams) (pos : Option (List PosEntry)) (nm : String)
    (h : nm ∈ (nl.map (·.name)).dedup) :
    ∃ n ∈ (prepareNodes cfg nl np pos).1,
      n.degree = mkDegree nl cfg.nodelistCols (findRow nl nm) := by
  obtain ⟨i, hi⟩ := mem_enum_of_mem _ nm h
  simp only [prepareNodes, List.map_map]
  exact ⟨_, List.mem_map.mpr ⟨(i, nm), hi, rfl⟩, rfl⟩

/-- The per-metric visual degree of _prepare_nodes is bounded by 34 (that is,
the normalized ratio is bounded by 1) whenever the metric column is
nonnegative with a nonzero max, and the bound is attained exactly at rows
carrying the column max. -/
theorem prepareNodes_degree_bound (cfg : ReteConfig) (nl : List NodeRow)
    (np : Option NodeParams) (pos : Option (List PosEntry)) (col : String)
    (hcol : col ∈ cfg.nodelistCols)
    (hnn : ∀ r ∈ nl, 0 ≤ getMetric r col)
    (hmax : nodeColMaxAbs nl col ≠ 0)
    (hnd : (nl.map (·.name)).Nodup) :
    (∀ n ∈ (prepareNodes cfg nl np pos).1, ∀ dv, n.degree.lookup col = some dv →
      (∀ q, dv.degree = some q → q ≤ 34) ∧
      (dv.source = nodeColMax nl col → dv.degree = some 34)) ∧
    (∃ n ∈ (prepareNodes cfg nl np pos).1, ∃ dv, n.degree.lookup col = some dv ∧
      dv.degree = some 34) := by
  have habs : nodeColMaxAbs nl col = nodeColMax nl col := by
    rw [nodeColMaxAbs, nodeColMax]
    congr 1
    exact List.map_congr_left (fun r hr => abs_of_nonneg (hnn r hr))
  have hMne : nodeColMax nl col ≠ 0 := habs ▸ hmax
  have hnl : nl ≠ [] := by
    intro hE
    exact hMne (by rw [hE]; rfl)
  have hmapne : nl.map (fun r => getMetric r col) ≠ [] := by
    intro hE
    cases nl with
    | nil => exact hnl rfl
    | cons a as => cases hE
  obtain ⟨r0, hr0, hr0M⟩ := List.mem_map.mp (pyMax_mem _ hmapne)
  have hM0 : 0 ≤ nodeColMax nl col := by
    rw [nodeColMax, ← hr0M]
    exact hnn r0 hr0
  have hMpos : 0 < nodeColMax nl col := lt_of_le_of_ne hM0 (Ne.symm hMne)
  have hpoint : ∀ row ∈ nl,
      (∀ q, ((npDiv |getMetric row col| |nodeColMax nl col|).map (fun t => t * 30 + 4)) = some q → q ≤ 34) ∧
      (getMetric row col = nodeColMax nl col →
        ((npDiv |getMetric row col| |nodeColMax nl col|).map (fun t => t * 30 + 4)) = some 34) := by
    intro row hrow
    have hMabs : |nodeColMax nl col| = nodeColMax nl col := abs_of_nonneg hM0
    have hvabs : |getMetric row col| = getMetric row col :=
      abs_of_nonneg (hnn row hrow)
    have hvle : getMetric row col ≤ nodeColMax nl col :=
      le_pyMax _ _ (List.mem_map.mpr ⟨row, hrow, rfl⟩)
    constructor
    · intro q hq
      rw [npDiv, if_neg (by rw [hMabs]; exact hMne)] at hq
      simp only [Option.map_some', Option.some.injEq] at hq
      have ht1 : |getMetric row col| / |nodeColMax nl col| ≤ 1 := by
        rw [hMabs, hvabs]
        exact (div_le_one hMpos).mpr hvle
      have h30 : |getMetric row col| / |nodeColMax nl col| * 30 ≤ 30 :=
        mul_le_of_le_one_left (by norm_num) ht1
      rw [← hq]
      linarith
    · intro hvM
      rw [npDiv, if_neg (by rw [hMabs]; exact hMne)]
      rw [hvabs, hMabs, hvM, div_self hMne]
      norm_num
  constructor
  · intro n hn dv hdv
    obtain ⟨nm, hnm, hdeg⟩ := prepareNodes_mem cfg nl np pos n hn
    rw [hdeg, mkDegree, lookup_map_key, if_pos hcol] at hdv
    cases hdv
    have hrow : findRow nl nm ∈ nl :=
      findRow_mem nl nm (List.mem_dedup.mp hnm)
    exact hpoint (findRow nl nm) hrow
  · have hnm : r0.name ∈ (nl.map (·.name)).dedup :=
      List.mem_dedup.mpr (List.mem_map.mpr ⟨r0, hr0, rfl⟩)
    obtain ⟨n, hn, hdeg⟩ := prepareNodes_mem_of_name cfg nl np pos r0.name hnm
    have hlook : n.degree.lookup col = some
        { degree := (npDiv |getMetric r0 col| |nodeColMax nl col|).map (fun t => t * 30 + 4)
        , source := getMetric r0 col } := by
      rw [hdeg, findRow_eq_of_nodup nl r0 hnd hr0, mkDegree, lookup_map_key, if_pos hcol]
    exact ⟨n, hn, _, hlook, (hpoint r0 hr0).2 hr0M⟩

/-- The weight_norm column written in place by _prepare_edges is bounded by 1
in absolute value when the max of absolute weights is nonzero, attains 1
exactly on rows of maximal absolute weight, and such a row exists. -/
theorem prepareEdges_weight_norm_bound (cfg : ReteConfig) (el : List EdgeRow)
    (ns : List (String × PreparedNode))
    (hmw : pyMax (el.map (fun x => |x.weight|)) ≠ 0) :
    (∀ row ∈ (prepareEdges cfg el ns).1,
      ∀ q, row.weight_norm = some (some q) →
        (|q| ≤ 1 ∧ (|row.weight| = pyMax (el.map (fun x => |x.weight|)) → |q| = 1))) ∧
    (∃ row ∈ (prepareEdges cfg el ns).1,
      ∃ q, row.weight_norm = some (some q) ∧ |q| = 1) := by
  have hne : el ≠ [] := by
    intro hE
    exact hmw (by rw [hE]; rfl)
  have hmapne : el.map (fun x => |x.weight|) ≠ [] := by
    intro hE
    cases el with
    | nil => exact hne rfl
    | cons a as => cases hE
  obtain ⟨e0, he0, he0M⟩ := List.mem_map.mp (pyMax_mem _ hmapne)
  have hM0 : 0 ≤ pyMax (el.map (fun x => |x.weight|)) := by
    rw [← he0M]
    exact abs_nonneg _
  have hMpos : 0 < pyMax (el.map (fun x => |x.weight|)) :=
    lt_of_le_of_ne hM0 (Ne.symm hmw)
  constructor
  · intro row hrow q hq
    simp only [prepareEdges, List.mem_map] at hrow
    obtain ⟨e, he, hre⟩ := hrow
    rw [← hre] at hq
    simp only at hq
    rw [npDiv, if_neg hmw] at hq
    simp only [Option.some.injEq] at hq
    have hqe : q = e.weight / pyMax (el.map (fun x => |x.weight|)) := hq.symm
    have habs : |q| = |e.weight| / pyMax (el.map (fun x => |x.weight|)) := by
      rw [hqe, abs_div, abs_of_nonneg hM0]
    constructor
    · rw [habs]
      exact (div_le_one hMpos).mpr (le_pyMax _ _ (List.mem_map.mpr ⟨e, he, rfl⟩))
    · intro hwM
      rw [← hre] at hwM
      simp only at hwM
      rw [habs, hwM, div_self hmw]
  · refine ⟨_, List.mem_map.mpr ⟨e0, he0, rfl⟩,
      e0.weight / pyMax (el.map (fun x => |x.weight|)), ?_, ?_⟩
    · simp only
      rw [npDiv, if_neg hmw]
    · rw [abs_div, abs_of_nonneg hM0, he0M, div_self hmw]

/-- The custom metric columns are untouched by the in-place weight_norm
assignment, so their maxima of absolute values are preserved. -/
theorem edgeCustomMaxAbs_norm_invariant (el : List EdgeRow) (c : String)
    (mw : ℚ) :
    edgeCustomMaxAbs (el.map (fun e => { e with weight_norm := some (npDiv e.weight mw) })) c =
      edgeCustomMaxAbs el c := by
  rw [edgeCustomMaxAbs, edgeCustomMaxAbs, List.map_map]
  rfl

/-- Every custom-column weight record serialized on a link by _prepare_edges
is normalized by its own column-wide max of absolute values, hence bounded by
1 in absolute value when that max is nonzero, with 1 attained at maximal
records. -/
theorem prepareEdges_custom_norm_bound (cfg : ReteConfig) (el : List EdgeRow)
    (ns : List (String × PreparedNode)) (c : String)
    (hc : c ∈ cfg.customCols) (hz : edgeCustomMaxAbs el c ≠ 0) :
    ∀ link ∈ (prepareEdges cfg el ns).2, ∀ wv, link.weights.lookup c = some wv →
      ∀ q, wv.weight_norm = some q →
        (|q| ≤ 1 ∧ (|wv.weight| = edgeCustomMaxAbs el c → |q| = 1)) := by
  have hM0 : 0 ≤ edgeCustomMaxAbs el c := by
    cases el with
    | nil => exact absurd rfl hz
    | cons e es =>
      obtain ⟨e1, he1, he1M⟩ := List.mem_map.mp
        (pyMax_mem ((e :: es).map (fun x => |(x.custom.lookup c).getD 0|)) (by simp))
      rw [edgeCustomMaxAbs, ← he1M]
      exact abs_nonneg _
  have hMpos : 0 < edgeCustomMaxAbs el c := lt_of_le_of_ne hM0 (Ne.symm hz)
  intro link hlink wv hwv q hq
  simp only [prepareEdges, List.mem_filterMap] at hlink
  obtain ⟨row, hrow, hfrow⟩ := hlink
  cases hs : ns.lookup row.source with
  | none => rw [hs] at hfrow; cases hfrow
  | some sn =>
    cases ht : ns.lookup row.target with
    | none => rw [hs, ht] at hfrow; cases hfrow
    | some tn =>
      rw [hs, ht] at hfrow
      cases hfrow
      rw [linkWeights, foldl_assocSet_lookup, if_pos hc] at hwv
      cases hwv
      rw [edgeCustomMaxAbs_norm_invariant el c] at hq
      rw [npDiv, if_neg hz] at hq
      simp only [Option.some.injEq] at hq
      obtain ⟨e1, he1, hre⟩ := List.mem_map.mp hrow
      have hcust : row.custom = e1.custom := by rw [← hre]
      have habs : |q| = |(e1.custom.lookup c).getD 0| / edgeCustomMaxAbs el c := by
        rw [← hq, abs_div, abs_of_nonneg hM0, hcust]
      constructor
      · rw [habs]
        exact (div_le_one hMpos).mpr
          (le_pyMax _ _ (List.mem_map.mpr ⟨e1, he1, rfl⟩))
      · intro hwM
        simp only [hcust] at hwM
        rw [habs, hwM, div_self hz]

/-- C4 (amended): normalization bounds of _prepare_nodes and _prepare_edges.
For node metrics the visual degree is ratio * 30 + 4, so the normalized ratio
is bounded by 1 exactly when the degree is bounded by 34; the divisor is the
plain column max (not the max of absolute values), so the bound requires the
metric column to be nonnegative, as the recorded counterexample forces.  Edge
weight_norm values and custom-column link weights are normalized by maxima of
absolute values and are bounded by 1 unconditionally on sign, with 1 attained
at records of maximal magnitude (and, for the default edge metric, such a
record exists in the mutated edge list). -/
theorem c4_normalization_bound_amended (cfg : ReteConfig) (nl : List NodeRow)
    (np : Option NodeParams) (pos : Option (List PosEntry)) (el : List EdgeRow)
    (ns : List (String × PreparedNode)) (col : String) :
    ((col ∈ cfg.nodelistCols ∧ (∀ r ∈ nl, 0 ≤ getMetric r col) ∧
      nodeColMaxAbs nl col ≠ 0 ∧ (nl.map (·.name)).Nodup) →
      ((∀ n ∈ (prepareNodes cfg nl np pos).1, ∀ dv, n.degree.lookup col = some dv →
        (∀ q, dv.degree = some q → q ≤ 34) ∧
        (dv.source = nodeColMax nl col → dv.degree = some 34)) ∧
      (∃ n ∈ (prepareNodes cfg nl np pos).1, ∃ dv, n.degree.lookup col = some dv ∧
        dv.degree = some 34))) ∧
    (pyMax (el.map (fun x => |x.weight|)) ≠ 0 →
      ((∀ row ∈ (prepareEdges cfg el ns).1, ∀ q, row.weight_norm = some (some q) →
        (|q| ≤ 1 ∧ (|row.weight| = pyMax (el.map (fun x => |x.weight|)) → |q| = 1))) ∧
      (∃ row ∈ (prepareEdges cfg el ns).1, ∃ q, row.weight_norm = some (some q) ∧ |q| = 1))) ∧
    (∀ c ∈ cfg.customCols, edgeCustomMaxAbs el c ≠ 0 →
      ∀ link ∈ (prepareEdges cfg el ns).2, ∀ wv, link.weights.lookup c = some wv →
        ∀ q, wv.weight_norm = some q →
          (|q| ≤ 1 ∧ (|wv.weight| = edgeCustomMaxAbs el c → |q| = 1))) :=
  ⟨fun h => prepareNodes_degree_bound cfg nl np pos col h.1 h.2.1 h.2.2.1 h.2.2.2,
   fun h => prepareEdges_weight_norm_bound cfg el ns h,
   fun c hc hz => prepareEdges_custom_norm_bound cfg el ns c hc hz⟩

/-- Configuration for the normalization counterexample. -/
def c4cfg : ReteConfig :=
  { nodelistCols := ["m"], nodelistDefaultCol := "m",
    edgelistDefaultCol := "w", customCols := [] }

/-- A node list with a negative metric value of larger magnitude than the
column max. -/
def c4nl : List NodeRow :=
  [{ name := "A", active := true, parent := none, alias_ := "A", changed_name := none, metrics := [("m", -2)] },
   { name := "B", active := true, parent := none, alias_ := "B", changed_name := none, metrics := [("m", 1)] }]

/-- C4 counterexample to the claim as stated: the metric max of absolute
values is 2, nonzero, yet the node with raw value -2 receives the visual
degree abs(-2) / abs(max = 1) * 30 + 4 = 64, that is a normalized ratio of 2,
because _prepare_nodes divides by the absolute value of the plain column max
rather than by the max of absolute values; and no record attains the claimed
equality at 1 (degree 34). -/
theorem c4_normalization_bound_counterexample :
    nodeColMaxAbs c4nl "m" = 2 ∧
    (prepareNodes c4cfg c4nl none none).1 =
      [{ index := 0, name := "A", degree := [("m", { degree := some 64, source := -2 })], type := "suit_node", active := true, alias_ := "A", parent := none, changed_name := none, x := none, y := none },
       { index := 1, name := "B", degree := [("m", { degree := some 34, source := 1 })], type := "suit_node", active := true, alias_ := "B", parent := none, changed_name := none, x := none, y := none }] ∧
    ¬((64 : ℚ) ≤ 34) := by
  refine ⟨?_, ?_, by norm_num⟩
  · simp [c4nl, nodeColMaxAbs, getMetric, pyMax]
  · simp [c4cfg, c4nl, prepareNodes, mkDegree, findRow, getMetric, nodeColMax,
      npDiv, pyMax, List.enum, List.enumFrom]
    norm_num [abs_of_nonpos, abs_of_nonneg]

/-- Configuration for the normalization witness, with one custom column. -/
def c4wcfg : ReteConfig :=
  { nodelistCols := ["m"], nodelistDefaultCol := "m",
    edgelistDefaultCol := "w", customCols := ["c"] }

/-- Nonnegative node metrics for the normalization witness. -/
def c4wnl : List NodeRow :=
  [{ name := "A", active := true, parent := none, alias_ := "A", changed_name := none, metrics := [("m", 2)] },
   { name := "B", active := true, parent := none, alias_ := "B", changed_name := none, metrics := [("m", 1)] }]

/-- Edge rows for the normalization witness. -/
def c4wel : List EdgeRow :=
  [{ source := "A", target := "B", weight := 2, custom := [("c", 1)], type := none, weight_norm := none },
   { source := "A", target := "B", weight := 1, custom := [("c", 1)], type := none, weight_norm := none }]

/-- Concrete instance for c4_normalization_bound_amended: the max node gets
degree exactly 34 (ratio 1), and the normalized default and custom edge
weights of the maximal rows have absolute value 1, hence within the bound. -/
theorem c4_normalization_bound_witness :
    ({ degree := some 34, source := 2 } : DegreeEntry).degree = some 34 ∧
    |(1 : ℚ)| ≤ 1 ∧ |(1 : ℚ)| ≤ 1 := by
  have h := c4_normalization_bound_amended c4wcfg c4wnl none none c4wel
    (prepareNodes c4wcfg c4wnl none none).2 "m"
  refine ⟨?_, ?_, ?_⟩
  · refine ((h.1 ⟨by decide, by decide, by decide, by decide⟩).1
      { index := 0, name := "A", degree := [("m", { degree := some 34, source := 2 })], type := "suit_node", active := true, alias_ := "A", parent := none, changed_name := none, x := none, y := none }
      ?_ { degree := some 34, source := 2 } ?_).2 ?_
    · simp [c4wcfg, c4wnl, prepareNodes, mkDegree, findRow, getMetric,
        nodeColMax, npDiv, pyMax, List.enum, List.enumFrom]
      norm_num
    · decide
    · simp [c4wnl, nodeColMax, getMetric, pyMax]
  · refine ((h.2.1 (by decide)).1
      { source := "A", target := "B", weight := 2, custom := [("c", 1)], type := none, weight_norm := some (some 1) }
      ?_ 1 rfl).1
    simp [c4wcfg, c4wel, prepareEdges, npDiv, pyMax]
  · refine (h.2.2 "c" (by decide) (by decide)
      { sourceIndex := 0, targetIndex := 1, weights := [("m", { weight_norm := some 1, weight := 2 }), ("c", { weight_norm := some 1, weight := 1 })], type := "" }
      ?_ { weight_norm := some 1, weight := 1 } ?_ 1 rfl).1
    · simp [c4wcfg, c4wnl, c4wel, prepareEdges, prepareNodes, linkWeights,
        assocSet, mkDegree, findRow, getMetric, nodeColMax, edgeCustomMaxAbs,
        npDiv, pyMax, List.enum, List.enumFrom, List.lookup]
    · decide

/-- The metric-merge fold of _update_node_after_recalc only rewrites the
declared metric columns, leaving every other field alone; its effect on the
metrics is a pointwise overwrite of the columns present in the column list. -/
theorem foldl_setMetric_eq (cols : List String) (g : String → ℚ) (r : NodeRow) :
    cols.foldl (fun r c => setMetric r c (g c)) r =
      { r with metrics := r.metrics.map (fun p =>
          if cols.contains p.1 then (p.1, g p.1) else p) } := by
  induction cols generalizing r with
  | nil =>
    have hid : (fun (p : String × ℚ) =>
        if ([] : List String).contains p.1 then (p.1, g p.1) else p) = fun p => p := by
      funext p
      rfl
    rw [List.foldl_nil, hid, List.map_id']
  | cons c cs ih =>
    rw [List.foldl_cons, ih, setMetric]
    simp only [List.map_map]
    congr 1
    apply List.map_congr_left
    intro p _
    simp only [Function.comp_apply]
    by_cases hpc : p.1 = c
    · have hb : (p.1 == c) = true := beq_iff_eq.mpr hpc
      simp [hb, hpc, List.contains_cons]
    · have hb : (p.1 == c) = false := beq_eq_false_iff_ne.mpr hpc
      simp [hb, List.contains_cons, hpc]

/-- The merge equation of _update_node_after_recalc when no recomputed row
matches. -/
theorem updateNodeAfterRecalc_eq_none (cfg : ReteConfig) (recN : List NodeRow)
    (row : NodeRow) (h : recN.find? (fun n => n.name == row.name) = none) :
    updateNodeAfterRecalc cfg recN row = row := by
  rw [updateNodeAfterRecalc, h]

/-- The merge equation of _update_node_after_recalc when a recomputed row
matches. -/
theorem updateNodeAfterRecalc_eq_some (cfg : ReteConfig) (recN : List NodeRow)
    (row m : NodeRow) (h : recN.find? (fun n => n.name == row.name) = some m) :
    updateNodeAfterRecalc cfg recN row =
      cfg.nodelistCols.foldl (fun r c => setMetric r c (getMetric m c)) row := by
  rw [updateNodeAfterRecalc, h]

/-- The merge of recomputed metrics changes no identity or edit field of a
node row. -/
theorem updateNodeAfterRecalc_fields (cfg : ReteConfig) (recN : List NodeRow)
    (row : NodeRow) :
    (updateNodeAfterRecalc cfg recN row).name = row.name ∧
    (updateNodeAfterRecalc cfg recN row).active = row.active ∧
    (updateNodeAfterRecalc cfg recN row).parent = row.parent := by
  cases hfind : recN.find? (fun n => n.name == row.name) with
  | none =>
    rw [updateNodeAfterRecalc_eq_none cfg recN row hfind]
    exact ⟨rfl, rfl, rfl⟩
  | some m =>
    rw [updateNodeAfterRecalc_eq_some cfg recN row m hfind, foldl_setMetric_eq]
    exact ⟨rfl, rfl, rfl⟩

/-- Merging the same recomputed metrics twice equals merging them once. -/
theorem updateNodeAfterRecalc_idem (cfg : ReteConfig) (recN : List NodeRow)
    (row : NodeRow) :
    updateNodeAfterRecalc cfg recN (updateNodeAfterRecalc cfg recN row) =
      updateNodeAfterRecalc cfg recN row := by
  have hname := (updateNodeAfterRecalc_fields cfg recN row).1
  cases hfind : recN.find? (fun n => n.name == row.name) with
  | none =>
    have h1 := updateNodeAfterRecalc_eq_none cfg recN row hfind
    rw [h1]
    exact h1
  | some m =>
    have h2 := updateNodeAfterRecalc_eq_some cfg recN row m hfind
    have h3 : updateNodeAfterRecalc cfg recN (updateNodeAfterRecalc cfg recN row) =
        cfg.nodelistCols.foldl (fun r c => setMetric r c (getMetric m c))
          (updateNodeAfterRecalc cfg recN row) := by
      apply updateNodeAfterRecalc_eq_some
      have hpred : (fun (n : NodeRow) => n.name == (updateNodeAfterRecalc cfg recN row).name) =
          (fun n => n.name == row.name) := by
        funext n
        rw [hname]
      rw [hpred]
      exact hfind
    rw [h3, h2]
    simp only [foldl_setMetric_eq, List.map_map]
    congr 1
    apply List.map_congr_left
    intro p _
    simp only [Function.comp_apply]
    by_cases hpc : p.1 ∈ cfg.nodelistCols
    · simp [hpc]
    · simp [hpc]

/-- Rebuilding the filtered and relabeled log only reads the name, active and
parent fields of the node list, so a row transformation preserving those
fields leaves the relabeled log unchanged. -/
theorem relabeledLog_map_invariant (nl : List NodeRow) (log : List LogRow)
    (f : NodeRow → NodeRow)
    (hf : ∀ r, (f r).name = r.name ∧ (f r).active = r.active ∧ (f r).parent = r.parent) :
    relabeledLog (nl.map f) log = relabeledLog nl log := by
  have hact : activeNodes (nl.map f) = (activeNodes nl).map f := by
    rw [activeNodes, activeNodes, List.filter_map]
    congr 1
    apply List.filter_congr
    intro x _
    simp only [Function.comp_apply]
    rw [(hf x).2.1]
  have hnames : (activeNodes (nl.map f)).map (·.name) = (activeNodes nl).map (·.name) := by
    rw [hact, List.map_map]
    exact List.map_congr_left (fun r _ => (hf r).1)
  have hfil : filteredLog (nl.map f) log = filteredLog nl log := by
    rw [filteredLog, filteredLog, hnames]
  have hg : groupedNodes (nl.map f) = (groupedNodes nl).map f := by
    rw [groupedNodes, groupedNodes, List.filter_map]
    congr 1
    apply List.filter_congr
    intro x _
    simp only [Function.comp_apply]
    rw [(hf x).2.2, (hf x).2.1]
  have hrep : ∀ row, replaceGroupedEvents (groupedNodes (nl.map f)) row =
      replaceGroupedEvents (groupedNodes nl) row := by
    intro row
    rw [replaceGroupedEvents, replaceGroupedEvents, hg, List.find?_map]
    have hpf : ((fun (g : NodeRow) => g.name == row.event) ∘ f) =
        (fun g => g.name == row.event) := by
      funext g
      simp only [Function.comp_apply]
      rw [(hf g).1]
    rw [hpf]
    cases hfind : (groupedNodes nl).find? (fun g => g.name == row.event) with
    | none => rfl
    | some g0 =>
      simp only [Option.map_some']
      rw [(hf g0).2.2]
  rw [relabeledLog, relabeledLog, hfil]
  exact List.map_congr_left (fun row _ => hrep row)

/-- Recomputing a second time from the state left by a recomputation (with
its edge list arbitrarily overwritten in the meantime) gives back the same
state: the merge of metrics is idempotent and the relabeled log is unchanged
by it, while the edge list is rebuilt from scratch. -/
theorem recalculate_idem (cfg : ReteConfig) (s : ReteGraphState)
    (X : List EdgeRow) :
    recalculate cfg { recalculate cfg s with edgelist := X } = recalculate cfg s := by
  obtain ⟨cs, nl, el, lay, t1, t2⟩ := s
  simp only [recalculate]
  have hfields := fun r => updateNodeAfterRecalc_fields cfg
    (createNodelist cfg (relabeledLog nl cs)) r
  have hrel := relabeledLog_map_invariant nl cs
    (updateNodeAfterRecalc cfg (createNodelist cfg (relabeledLog nl cs))) hfields
  rw [hrel]
  congr 1
  rw [List.map_map]
  exact List.map_congr_left (fun r _ => updateNodeAfterRecalc_idem cfg _ r)

/-- C3: issuing the recalculate request twice in a row with no intervening
edits returns the same session state and the same payload as issuing it
once: node list, edge list, metric values and serialized records coincide
(the embedding fixes a canonical iteration order for the index assignment,
so the equality is exact, which subsumes equality modulo index labels). -/
theorem c3_recompute_idempotent (cfg : ReteConfig) (s : ReteGraphState) :
    onRecalcRequest cfg [] ((onRecalcRequest cfg [] s).1) = onRecalcRequest cfg [] s := by
  have key : recalculate cfg (onNodelistUpdated cfg [] ((onRecalcRequest cfg [] s).1)) =
      recalculate cfg (onNodelistUpdated cfg [] s) :=
    recalculate_idem cfg s _
  have hG : ∀ x y : ReteGraphState,
      recalculate cfg (onNodelistUpdated cfg [] x) = recalculate cfg (onNodelistUpdated cfg [] y) →
      onRecalcRequest cfg [] x = onRecalcRequest cfg [] y := by
    intro x y hxy
    simp only [onRecalcRequest]
    rw [hxy]
  exact hG _ _ key

end Rete
